import Mathlib

/-!
Verification of the Blender API manifest generator and query tool.

A shallow embedding of `scripts/generate_blender_api_manifest.py` and
`scripts/query_blender_api_manifest.py`.

The generator scans HTML documents, extracts `id="..."` anchors and the
title, classifies documents and anchors by prefix rules, and aggregates
sorted indexes into a manifest.  The query tool matches a lowercased
needle as a substring against file names, titles and anchors, applies
stable de-duplication and truncates to a limit.

File reading, regular-expression extraction and JSON encoding are
external primitives; a `Doc` below records what the scanner receives
from them for one document: the file name, the (optional) raw contents
of the first `<title>` tag and the list of extracted `id` values, in
extraction order.
-/

namespace BlenderManifest

/-- One input document, as seen after the external extraction primitives:
`file` is `path.name`, `titleTag` the raw text of the first title tag
(if any), `ids` the list of `id="..."` values in order of occurrence. -/
structure Doc where
  file : String
  titleTag : Option String
  ids : List String
deriving DecidableEq, Repr

/-- Models Python `s.startswith(pre)`. -/
def pyStartsWith (s pre : String) : Bool :=
  pre.data.isPrefixOf s.data

/-- Python's `<` on strings: lexicographic comparison of code points,
computed on the character lists. -/
def strLt (a b : String) : Bool :=
  decide (a.data < b.data)

/-- Python's `≤` on strings: `a ≤ b` iff not `b < a`. -/
def strLe (a b : String) : Bool :=
  !strLt b a

/-- Models Python `s.lower()` (character-wise lowercasing, a given
primitive; ASCII-complete, which covers every name this tool handles). -/
def pyLower (s : String) : String :=
  String.mk (s.data.map Char.toLower)

/-- Models Python `s.strip()`: drop leading and trailing whitespace. -/
def pyStrip (s : String) : String :=
  String.mk (((s.data.dropWhile Char.isWhitespace).reverse.dropWhile
    Char.isWhitespace).reverse)

/-- Stable insertion of `a` into `l`: `a` goes in front of the first
element it compares `le` to.  Building block for the model of Python's
stable `sorted`. -/
def orderedIns {α : Type} (le : α → α → Bool) (a : α) : List α → List α
  | [] => [a]
  | b :: l => if le a b then a :: b :: l else b :: orderedIns le a l

/-- Models Python's stable `sorted(l, key=...)` for a total preorder
`le`: insertion sort, which returns the same list as any stable sort. -/
def sortBy {α : Type} (le : α → α → Bool) : List α → List α
  | [] => []
  | a :: l => orderedIns le a (sortBy le l)

/-- `classify(file_name)` from the generator: first-matching filename
prefix rule, with catch-all `other_page`. -/
def classify (file_name : String) : String :=
  if pyStartsWith file_name "bpy.ops." then "ops_page"
  else if pyStartsWith file_name "bpy.types." then "types_page"
  else if pyStartsWith file_name "bpy.app" then "app_page"
  else if pyStartsWith file_name "bpy." then "bpy_page"
  else if pyStartsWith file_name "bmesh" then "bmesh_page"
  else if pyStartsWith file_name "mathutils" then "mathutils_page"
  else if pyStartsWith file_name "gpu" then "gpu_page"
  else "other_page"

/-- The anchor-classification chain inlined in `scan_html` (the spec calls
it `classify_anchor`): first-matching anchor prefix rule, possibly no
group. -/
def classify_anchor (a : String) : Option String :=
  if pyStartsWith a "bpy.ops." then some "operators"
  else if pyStartsWith a "bpy.types." then some "types"
  else if pyStartsWith a "bpy.app." then some "app"
  else if pyStartsWith a "bpy." then some "bpy"
  else if pyStartsWith a "bmesh." then some "bmesh"
  else if pyStartsWith a "mathutils." then some "mathutils"
  else if pyStartsWith a "gpu." then some "gpu"
  else none

/-- Append `b` to the list held at key `k` of an insertion-ordered
association list, inserting the key at the end if absent.  This is the
`defaultdict(list)` pattern `d[k].append(b)` of the generator. -/
def addEntry {β : Type} (m : List (String × List β)) (k : String) (b : β) :
    List (String × List β) :=
  match m with
  | [] => [(k, [b])]
  | (k', v) :: rest =>
    if k' = k then (k', v ++ [b]) :: rest else (k', v) :: addEntry rest k b

/-- The bucket-filling loop of `scan_html`: each id is appended to the
bucket of its anchor group (if any), buckets appearing in first-insertion
order. -/
def bucketIds (m : List (String × List String)) : List String → List (String × List String)
  | [] => m
  | a :: rest =>
    match classify_anchor a with
    | some g => bucketIds (addEntry m g a) rest
    | none => bucketIds m rest

/-- Sorted insertion without duplicates, the building block used to model
Python `sorted(set(v))`. -/
def insNoDup (x : String) : List String → List String
  | [] => [x]
  | y :: ys =>
    if strLt x y then x :: y :: ys else if x = y then y :: ys else y :: insNoDup x ys

/-- Models Python `sorted(set(v))`: the strictly increasing enumeration of
the distinct elements of `v`. -/
def sortedDedup (v : List String) : List String :=
  v.foldr insNoDup []

/-- One per-document record, `scan_html`'s return value:
`{'file': …, 'title': …, 'class': …, 'id_count': …, 'anchors': …}`. -/
structure Record where
  file : String
  title : String
  cls : String
  id_count : Nat
  anchors : List (String × List String)
deriving DecidableEq, Repr

/-- `scan_html`: title falls back to the file name, `id_count` is the raw
number of ids, and `anchors` maps each non-empty group to
`sorted(set(bucket))`. -/
def scan_html (d : Doc) : Record :=
  { file := d.file
  , title := match d.titleTag with | some t => pyStrip t | none => d.file
  , cls := classify d.file
  , id_count := d.ids.length
  , anchors := ((bucketIds [] d.ids).filter (fun kv => !kv.2.isEmpty)).map
      (fun kv => (kv.1, sortedDedup kv.2)) }

/-- Python `s.split('.', maxsplit)` worker: `cur` holds the chars of the
current field in reverse; while `fuel` is positive a dot ends a field. -/
def splitGo : Nat → List Char → List Char → List String
  | _, cur, [] => [String.mk cur.reverse]
  | 0, cur, c :: cs => splitGo 0 (c :: cur) cs
  | fuel + 1, cur, c :: cs =>
    if c = '.' then String.mk cur.reverse :: splitGo fuel [] cs
    else splitGo (fuel + 1) (c :: cur) cs

/-- Models Python `s.split('.', maxsplit)`. -/
def pySplitDot (s : String) (maxsplit : Nat) : List String :=
  splitGo maxsplit [] s.data

/-- One `{'id': …, 'file': …}` pair of a namespace index. -/
structure Pair where
  id : String
  file : String
deriving DecidableEq, Repr

/-- The three accumulating indexes of `build_manifest`'s entry loop. -/
structure BuildState where
  ops : List (String × List Pair)
  tys : List (String × List Pair)
  topic : List (String × List String)
deriving DecidableEq, Repr

/-- Python `e['anchors'].get(k, [])` on the record's group map. -/
def getGroup (m : List (String × List String)) (k : String) : List String :=
  match m with
  | [] => []
  | (k', v) :: rest => if k' = k then v else getGroup rest k

/-- The inner loop `for op in e['anchors'].get(g, []): idx[op.split('.', 3)[2]].append(...)`.
Indexing position 2 of a split with fewer than three fields raises
`IndexError` in Python; here that is the explicit error outcome. -/
def addAnchors (f : String) (m : List (String × List Pair)) :
    List String → Except String (List (String × List Pair))
  | [] => .ok m
  | a :: rest =>
    match (pySplitDot a 3)[2]? with
    | some k => addAnchors f (addEntry m k ⟨a, f⟩) rest
    | none => .error "IndexError: list index out of range"

/-- The body of `build_manifest`'s loop over entries: fill the operator
index, the type index and the per-class page index from one record. -/
def stepEntry (st : BuildState) (e : Record) : Except String BuildState :=
  match addAnchors e.file st.ops (getGroup e.anchors "operators") with
  | .error msg => .error msg
  | .ok ops =>
    match addAnchors e.file st.tys (getGroup e.anchors "types") with
    | .error msg => .error msg
    | .ok tys => .ok ⟨ops, tys, addEntry st.topic e.cls e.file⟩

/-- The whole entry loop of `build_manifest`. -/
def buildIndexes (st : BuildState) : List Record → Except String BuildState
  | [] => .ok st
  | e :: rest =>
    match stepEntry st e with
    | .error msg => .error msg
    | .ok st' => buildIndexes st' rest

/-- The sort key of `sort_index`: pairs ordered by the tuple
`(x['file'], x['id'])`. -/
def pairLe (p q : Pair) : Bool :=
  strLt p.file q.file || (p.file = q.file && strLe p.id q.id)

/-- `sorted(v, key=lambda x: (x['file'], x['id']))`. -/
def sortPairs (l : List Pair) : List Pair :=
  sortBy pairLe l

/-- `sort_index`: sort the keys, and each namespace's pair list by
`(file, id)`. -/
def sortIndex (d : List (String × List Pair)) : List (String × List Pair) :=
  (sortBy (fun a b => strLe a.1 b.1) d).map (fun kv => (kv.1, sortPairs kv.2))

/-- `{k: sorted(v) for k, v in sorted(topic_index.items())}`. -/
def sortTopic (d : List (String × List String)) : List (String × List String) :=
  (sortBy (fun a b => strLe a.1 b.1) d).map (fun kv => (kv.1, sortBy strLe kv.2))

/-- The serialized manifest's structure. -/
structure Manifest where
  doc_root : String
  pages_scanned : Nat
  entries : List Record
  operators_by_namespace : List (String × List Pair)
  types_by_namespace : List (String × List Pair)
  pages_by_class : List (String × List String)
  notes : List String
deriving DecidableEq, Repr

deriving instance DecidableEq for Except

/-- `sorted(doc_root.glob('*.html'))`: the documents in ascending
file-name order (for files of one directory, path order is name order). -/
def sortDocs (docs : List Doc) : List Doc :=
  sortBy (fun a b => strLe a.file b.file) docs

/-- `build_manifest` after the per-document scan: aggregate the already
scanned records. -/
def buildFromEntries (docRoot : String) (entries : List Record) :
    Except String Manifest :=
  match buildIndexes ⟨[], [], []⟩ entries with
  | .error msg => .error msg
  | .ok st => .ok
    { doc_root := docRoot
    , pages_scanned := entries.length
    , entries := entries
    , operators_by_namespace := sortIndex st.ops
    , types_by_namespace := sortIndex st.tys
    , pages_by_class := sortTopic st.topic
    , notes :=
      [ "Use this manifest to map natural-language tasks to exact Blender API anchors."
      , "Prefer local project scripts in junipali-game/blender_tools when overlap exists." ] }

/-- `build_manifest(doc_root)`: scan the documents in sorted order, then
aggregate.  The `Except` captures the Python `IndexError` on
under-segmented anchors. -/
def build_manifest (docRoot : String) (docs : List Doc) : Except String Manifest :=
  buildFromEntries docRoot ((sortDocs docs).map scan_html)

/-! ## The query tool -/

/-- Substring test on character lists, models Python `needle in hay`. -/
def listInfixOf (n : List Char) : List Char → Bool
  | [] => n.isEmpty
  | c :: t => n.isPrefixOf (c :: t) || listInfixOf n t

/-- Models Python `needle in hay` on strings. -/
def pyIn (needle hay : String) : Bool :=
  listInfixOf needle.data hay.data

/-- A result row `(file, title, anchor-or-None)` of the query tool. -/
abbrev Row := String × String × Option String

/-- The rows one entry emits for a (pre-lowercased) needle `q`: a
document-level row when the file name or title matches, then one row per
matching anchor, groups in stored order. -/
def rowsOfEntry (q : String) (e : Record) : List Row :=
  (if pyIn q (pyLower e.file) || pyIn q (pyLower e.title)
    then [(e.file, e.title, none)] else [])
  ++ e.anchors.flatMap
      (fun kv => (kv.2.filter (fun a => pyIn q (pyLower a))).map
        (fun a => (e.file, e.title, some a)))

/-- The full emitted row sequence, entries in manifest order; the needle
is lowercased once, as in the tool. -/
def emitRows (entries : List Record) (qRaw : String) : List Row :=
  entries.flatMap (rowsOfEntry (pyLower qRaw))

/-- The tool's `seen`-set loop: drop a row equal to an earlier one, keep
first occurrences in order. -/
def dedupSeenGo (seen : List Row) : List Row → List Row
  | [] => []
  | r :: rest =>
    if r ∈ seen then dedupSeenGo seen rest
    else r :: dedupSeenGo (r :: seen) rest

/-- Python `l[:n]` including negative-`n` slice semantics. -/
def pySlice {α : Type} (l : List α) (n : Int) : List α :=
  if 0 ≤ n then l.take n.toNat else l.take (l.length - (-n).toNat)

/-- The rows the query tool prints: the deduplicated sequence truncated
by `uniq[:limit]`. -/
def queryRows (entries : List Record) (q : String) (limit : Int) : List Row :=
  pySlice (dedupSeenGo [] (emitRows entries q)) limit

/-- The `total=` figure of the summary line: `len(uniq)`. -/
def queryTotal (entries : List Record) (q : String) : Nat :=
  (dedupSeenGo [] (emitRows entries q)).length

/-- Specification-side first-occurrence de-duplication: keep an element
and erase its later duplicates, recursively. -/
def keepFirst {α : Type} [DecidableEq α] : List α → List α
  | [] => []
  | x :: xs => x :: keepFirst (xs.filter (fun y => y ≠ x))
termination_by l => l.length
decreasing_by
  simp only [List.length_cons]
  exact Nat.lt_succ_of_le (List.length_filter_le _ _)

/-! ## Specification-side auxiliary definitions -/

/-- An ordered rule list evaluated first-match-wins (the spec's reading of
the sequential prefix checks). -/
def firstMatch (rules : List (String × String)) (s : String) : Option String :=
  match rules with
  | [] => none
  | (p, lab) :: rest => if pyStartsWith s p then some lab else firstMatch rest s

/-- The page-classification rules of `classify`, in source order. -/
def page_rules : List (String × String) :=
  [ ("bpy.ops.", "ops_page"), ("bpy.types.", "types_page"), ("bpy.app", "app_page")
  , ("bpy.", "bpy_page"), ("bmesh", "bmesh_page"), ("mathutils", "mathutils_page")
  , ("gpu", "gpu_page") ]

/-- The anchor-grouping rules of `scan_html`'s chain, in source order. -/
def anchor_rules : List (String × String) :=
  [ ("bpy.ops.", "operators"), ("bpy.types.", "types"), ("bpy.app.", "app")
  , ("bpy.", "bpy"), ("bmesh.", "bmesh"), ("mathutils.", "mathutils")
  , ("gpu.", "gpu") ]

/-- Total number of values held in an association list to lists. -/
def totLen {β : Type} (m : List (String × List β)) : Nat :=
  (m.map (fun kv => kv.2.length)).sum

/-- Ordering of `Pair`s by the tuple `(file, id)`, as a proposition. -/
def pairTupleLe (p q : Pair) : Prop :=
  p.file < q.file ∨ (p.file = q.file ∧ p.id ≤ q.id)

/-! ## Concrete inputs used in witnesses and counterexamples -/

/-- A two-document corpus: the end-to-end example of the spec. -/
def demoDocs : List Doc :=
  [ ⟨"bpy.ops.mesh.html", some "Mesh Ops", ["bpy.ops.mesh.fill", "bpy.ops.mesh.knife"]⟩
  , ⟨"bpy.types.object.html", none, ["bpy.types.Object"]⟩ ]

/-- A document whose ids arrive in non-lexical extraction order. -/
def docC7 : Doc := ⟨"x.html", none, ["bpy.ops.b.y", "bpy.ops.b.x"]⟩

/-- A record whose operators group holds an under-segmented anchor. -/
def recBad : Record :=
  { file := "f.html", title := "t", cls := "other_page", id_count := 1
  , anchors := [("operators", ["bpy.ops"])] }

/-- Query-tool input with two distinct anchor matches for needle `bpy`. -/
def qEnts : List Record :=
  [ { file := "a.html", title := "t", cls := "other_page", id_count := 2
    , anchors := [("operators", ["bpy.ops.a.x", "bpy.ops.a.y"])] } ]

/-- The manifest the build produces for `demoDocs`, written out in full
(machine-checked against `build_manifest` in the witnesses). -/
def demoManifest : Manifest :=
  { doc_root := "docs"
  , pages_scanned := 2
  , entries :=
    [ { file := "bpy.ops.mesh.html", title := "Mesh Ops", cls := "ops_page", id_count := 2
      , anchors := [("operators", ["bpy.ops.mesh.fill", "bpy.ops.mesh.knife"])] }
    , { file := "bpy.types.object.html", title := "bpy.types.object.html"
      , cls := "types_page", id_count := 1
      , anchors := [("types", ["bpy.types.Object"])] } ]
  , operators_by_namespace :=
    [ ("mesh", [ { id := "bpy.ops.mesh.fill", file := "bpy.ops.mesh.html" }
               , { id := "bpy.ops.mesh.knife", file := "bpy.ops.mesh.html" } ]) ]
  , types_by_namespace :=
    [ ("Object", [ { id := "bpy.types.Object", file := "bpy.types.object.html" } ]) ]
  , pages_by_class :=
    [ ("ops_page", ["bpy.ops.mesh.html"]), ("types_page", ["bpy.types.object.html"]) ]
  , notes :=
    [ "Use this manifest to map natural-language tasks to exact Blender API anchors."
    , "Prefer local project scripts in junipali-game/blender_tools when overlap exists." ] }

/-! ## Order bridge and generic sorting lemmas -/

theorem strLt_iff {a b : String} : strLt a b = true ↔ a < b := by
  rw [strLt, decide_eq_true_eq]
  exact (String.lt_iff_toList_lt).symm

theorem strLe_iff {a b : String} : strLe a b = true ↔ a ≤ b := by
  rw [strLe, Bool.not_eq_true', strLt, decide_eq_false_iff_not]
  exact (not_congr String.lt_iff_toList_lt).symm.trans not_lt

theorem strLe_total_bool (a b : String) : (strLe a b || strLe b a) = true := by
  rcases le_total a b with h | h
  · simp [strLe_iff.mpr h]
  · simp [strLe_iff.mpr h]

theorem strLe_trans_bool (a b c : String) (hab : strLe a b = true)
    (hbc : strLe b c = true) : strLe a c = true :=
  strLe_iff.mpr (le_trans (strLe_iff.mp hab) (strLe_iff.mp hbc))

theorem mem_orderedIns {α : Type} {le : α → α → Bool} {x a : α} :
    ∀ {l : List α}, x ∈ orderedIns le a l ↔ x = a ∨ x ∈ l := by
  intro l
  induction l with
  | nil => simp [orderedIns]
  | cons b l ih =>
    by_cases h : le a b = true
    · simp [orderedIns, h]
    · simp only [orderedIns, if_neg h, List.mem_cons, ih]
      tauto

theorem orderedIns_perm {α : Type} (le : α → α → Bool) (a : α) :
    ∀ l : List α, (orderedIns le a l).Perm (a :: l) := by
  intro l
  induction l with
  | nil => simp [orderedIns]
  | cons b l ih =>
    by_cases h : le a b = true
    · simp [orderedIns, h]
    · rw [orderedIns, if_neg h]
      exact (ih.cons b).trans (List.Perm.swap a b l)

theorem sortBy_perm {α : Type} (le : α → α → Bool) :
    ∀ l : List α, (sortBy le l).Perm l := by
  intro l
  induction l with
  | nil => simp [sortBy]
  | cons a l ih =>
    rw [sortBy]
    exact (orderedIns_perm le a _).trans (ih.cons a)

theorem orderedIns_sorted {α : Type} {le : α → α → Bool}
    (total : ∀ a b, (le a b || le b a) = true)
    (trans : ∀ a b c, le a b = true → le b c = true → le a c = true)
    (a : α) : ∀ {l : List α}, List.Pairwise (fun x y => le x y = true) l →
    List.Pairwise (fun x y => le x y = true) (orderedIns le a l) := by
  intro l
  induction l with
  | nil => intro _; simp [orderedIns]
  | cons b l ih =>
    intro h
    rcases List.pairwise_cons.mp h with ⟨hb, hl⟩
    by_cases hab : le a b = true
    · rw [orderedIns, if_pos hab]
      refine List.pairwise_cons.mpr ⟨?_, h⟩
      intro x hx
      rcases List.mem_cons.mp hx with rfl | hx'
      · exact hab
      · exact trans a b x hab (hb x hx')
    · rw [orderedIns, if_neg hab]
      refine List.pairwise_cons.mpr ⟨?_, ih hl⟩
      intro x hx
      rcases mem_orderedIns.mp hx with heq | hx'
      · have h' := total a b
        rw [Bool.or_eq_true] at h'
        rcases h' with h' | h'
        · exact absurd h' hab
        · exact heq.symm ▸ h'
      · exact hb x hx'

theorem sortBy_sorted {α : Type} {le : α → α → Bool}
    (total : ∀ a b, (le a b || le b a) = true)
    (trans : ∀ a b c, le a b = true → le b c = true → le a c = true) :
    ∀ l : List α, List.Pairwise (fun x y => le x y = true) (sortBy le l) := by
  intro l
  induction l with
  | nil => simp [sortBy]
  | cons a l ih => exact orderedIns_sorted total trans a ih

/-! ## Association-list lemmas -/

theorem mem_addEntry_self {β : Type} (m : List (String × List β)) (k : String) (b : β) :
    ∃ v, (k, v) ∈ addEntry m k b ∧ b ∈ v := by
  induction m with
  | nil => exact ⟨[b], List.mem_singleton_self _, List.mem_singleton_self _⟩
  | cons kv rest ih =>
    obtain ⟨k', v'⟩ := kv
    by_cases h : k' = k
    · subst h
      exact ⟨v' ++ [b], by simp [addEntry],
        List.mem_append_right _ (List.mem_singleton_self _)⟩
    · obtain ⟨v, hv, hb⟩ := ih
      exact ⟨v, by simp [addEntry, h, hv], hb⟩

theorem mem_addEntry_mono {β : Type} {m : List (String × List β)} {k : String}
    {v : List β} (h : (k, v) ∈ m) (k₀ : String) (b : β) :
    ∃ v', (k, v') ∈ addEntry m k₀ b ∧ ∀ x ∈ v, x ∈ v' := by
  induction m with
  | nil => cases h
  | cons kv rest ih =>
    obtain ⟨k', v₁⟩ := kv
    rcases List.mem_cons.mp h with hhead | htail
    · cases hhead
      by_cases hk : k = k₀
      · subst hk
        exact ⟨v ++ [b], by simp [addEntry], fun x hx => List.mem_append_left _ hx⟩
      · exact ⟨v, by simp [addEntry, hk], fun x hx => hx⟩
    · by_cases hk : k' = k₀
      · subst hk
        exact ⟨v, by simp [addEntry, htail], fun x hx => hx⟩
      · obtain ⟨v', hv', hsub⟩ := ih htail
        exact ⟨v', by simp [addEntry, hk, hv'], hsub⟩

theorem addEntry_pred {β : Type} {P : String → β → Prop} {m : List (String × List β)}
    {k : String} {b : β}
    (hm : ∀ kv ∈ m, ∀ x ∈ kv.2, P kv.1 x) (hb : P k b) :
    ∀ kv ∈ addEntry m k b, ∀ x ∈ kv.2, P kv.1 x := by
  induction m with
  | nil =>
    intro kv hkv x hx
    simp only [addEntry, List.mem_singleton] at hkv
    subst hkv
    simp only [List.mem_singleton] at hx
    subst hx
    exact hb
  | cons kv₀ rest ih =>
    obtain ⟨k', v'⟩ := kv₀
    by_cases h : k' = k
    · subst h
      intro kv hkv x hx
      simp only [addEntry, if_pos rfl] at hkv
      rcases List.mem_cons.mp hkv with rfl | htail
      · rcases List.mem_append.mp hx with hx' | hx'
        · exact hm _ (List.mem_cons_self _ _) _ hx'
        · simp only [List.mem_singleton] at hx'
          subst hx'
          exact hb
      · exact hm _ (List.mem_cons_of_mem _ htail) _ hx
    · intro kv hkv x hx
      simp only [addEntry, if_neg h] at hkv
      rcases List.mem_cons.mp hkv with rfl | htail
      · exact hm _ (List.mem_cons_self _ _) _ hx
      · exact ih (fun kv₁ h₁ => hm _ (List.mem_cons_of_mem _ h₁)) _ htail _ hx

theorem totLen_addEntry {β : Type} (m : List (String × List β)) (k : String) (b : β) :
    totLen (addEntry m k b) = totLen m + 1 := by
  induction m with
  | nil => simp [addEntry, totLen]
  | cons kv rest ih =>
    obtain ⟨k', v⟩ := kv
    by_cases h : k' = k <;> simp [addEntry, h, totLen] at ih ⊢ <;> omega

theorem getGroup_mem {m : List (String × List String)} {k a : String}
    (h : a ∈ getGroup m k) : ∃ v, (k, v) ∈ m ∧ a ∈ v := by
  induction m with
  | nil => simp [getGroup] at h
  | cons kv rest ih =>
    obtain ⟨k', v'⟩ := kv
    by_cases hk : k' = k
    · subst hk
      simp only [getGroup, if_pos rfl] at h
      exact ⟨v', List.mem_cons_self _ _, h⟩
    · simp only [getGroup, if_neg hk] at h
      obtain ⟨v, hv, ha⟩ := ih h
      exact ⟨v, List.mem_cons_of_mem _ hv, ha⟩

/-! ## `sortedDedup` lemmas -/

theorem mem_insNoDup {x a : String} : ∀ {l : List String},
    a ∈ insNoDup x l ↔ a = x ∨ a ∈ l := by
  intro l
  induction l with
  | nil => simp [insNoDup]
  | cons y ys ih =>
    by_cases h1 : strLt x y = true
    · simp [insNoDup, h1]
    · by_cases h2 : x = y
      · subst h2
        simp only [insNoDup, if_neg h1, if_pos rfl]
        constructor
        · intro h; exact Or.inr h
        · rintro (rfl | h)
          · exact List.mem_cons_self _ _
          · exact h
      · simp only [insNoDup, if_neg h1, if_neg h2, List.mem_cons, ih]
        tauto

theorem mem_sortedDedup {a : String} : ∀ {v : List String},
    a ∈ sortedDedup v ↔ a ∈ v := by
  intro v
  induction v with
  | nil => simp [sortedDedup]
  | cons x xs ih =>
    simp only [sortedDedup, List.foldr_cons] at ih ⊢
    rw [mem_insNoDup, ih, List.mem_cons]

theorem pairwise_insNoDup {x : String} : ∀ {l : List String},
    List.Pairwise (· < ·) l → List.Pairwise (· < ·) (insNoDup x l) := by
  intro l
  induction l with
  | nil => intro _; simp [insNoDup]
  | cons y ys ih =>
    intro h
    rcases List.pairwise_cons.mp h with ⟨hy, hys⟩
    by_cases h1 : strLt x y = true
    · simp only [insNoDup, if_pos h1]
      refine List.pairwise_cons.mpr ⟨?_, h⟩
      intro z hz
      rcases List.mem_cons.mp hz with rfl | hz'
      · exact strLt_iff.mp h1
      · exact lt_trans (strLt_iff.mp h1) (hy z hz')
    · by_cases h2 : x = y
      · subst h2
        simpa [insNoDup, h1] using h
      · simp only [insNoDup, if_neg h1, if_neg h2]
        refine List.pairwise_cons.mpr ⟨?_, ih hys⟩
        intro z hz
        have hyx : y < x := by
          have hnlt : ¬ x < y := fun hlt => h1 (strLt_iff.mpr hlt)
          exact lt_of_le_of_ne (not_lt.mp hnlt) (fun he => h2 he.symm)
        rcases mem_insNoDup.mp hz with rfl | hz'
        · exact hyx
        · exact hy z hz'

theorem pairwise_sortedDedup (v : List String) :
    List.Pairwise (· < ·) (sortedDedup v) := by
  induction v with
  | nil => simp [sortedDedup]
  | cons x xs ih => exact pairwise_insNoDup ih

theorem insNoDup_ne_nil (x : String) (l : List String) : insNoDup x l ≠ [] := by
  cases l with
  | nil => simp [insNoDup]
  | cons y ys =>
    simp only [insNoDup]
    split
    · simp
    · split <;> simp

theorem sortedDedup_ne_nil {v : List String} (h : v ≠ []) : sortedDedup v ≠ [] := by
  cases v with
  | nil => exact absurd rfl h
  | cons x xs => exact insNoDup_ne_nil x _

theorem length_insNoDup_le (x : String) (l : List String) :
    (insNoDup x l).length ≤ l.length + 1 := by
  induction l with
  | nil => simp [insNoDup]
  | cons y ys ih =>
    simp only [insNoDup]
    split
    · simp
    · split
      · simp
      · simpa using Nat.succ_le_succ ih

theorem length_sortedDedup_le (v : List String) :
    (sortedDedup v).length ≤ v.length := by
  induction v with
  | nil => simp [sortedDedup]
  | cons x xs ih =>
    calc (insNoDup x (sortedDedup xs)).length ≤ (sortedDedup xs).length + 1 :=
          length_insNoDup_le _ _
      _ ≤ xs.length + 1 := Nat.succ_le_succ ih
      _ = (x :: xs).length := by simp

/-! ## `keepFirst` and the query tool's seen-set loop -/

theorem keepFirst_sublist {α : Type} [DecidableEq α] :
    ∀ l : List α, List.Sublist (keepFirst l) l
  | [] => by simp [keepFirst]
  | x :: xs => by
    rw [keepFirst]
    exact List.Sublist.cons₂ x ((keepFirst_sublist _).trans (List.filter_sublist _))
termination_by l => l.length
decreasing_by
  simp only [List.length_cons]
  exact Nat.lt_succ_of_le (List.length_filter_le _ _)

theorem mem_keepFirst_of_mem {α : Type} [DecidableEq α] :
    ∀ {l : List α} {a : α}, a ∈ l → a ∈ keepFirst l
  | x :: xs, a, h => by
    rw [keepFirst]
    by_cases hax : a = x
    · subst hax
      exact List.mem_cons_self _ _
    · rcases List.mem_cons.mp h with rfl | h'
      · exact absurd rfl hax
      · refine List.mem_cons_of_mem _ (mem_keepFirst_of_mem ?_)
        simp [List.mem_filter, h', hax]
termination_by l _ => l.length
decreasing_by
  simp only [List.length_cons]
  exact Nat.lt_succ_of_le (List.length_filter_le _ _)

theorem keepFirst_nodup {α : Type} [DecidableEq α] : ∀ l : List α, (keepFirst l).Nodup
  | [] => by simp [keepFirst]
  | x :: xs => by
    rw [keepFirst]
    refine List.Pairwise.cons ?_ (keepFirst_nodup _)
    intro a ha
    have hmem : a ∈ xs.filter (fun y => y ≠ x) := (keepFirst_sublist _).subset ha
    have := List.of_mem_filter hmem
    simp only [ne_eq, decide_not, Bool.not_eq_true', decide_eq_false_iff_not] at this
    exact fun he => this he.symm
termination_by l => l.length
decreasing_by
  simp only [List.length_cons]
  exact Nat.lt_succ_of_le (List.length_filter_le _ _)

theorem dedupSeenGo_eq : ∀ (l : List Row) (seen : List Row),
    dedupSeenGo seen l = keepFirst (l.filter (fun x => x ∉ seen)) := by
  intro l
  induction l with
  | nil => intro seen; simp [dedupSeenGo, keepFirst]
  | cons r rest ih =>
    intro seen
    by_cases h : r ∈ seen
    · simp only [dedupSeenGo, if_pos h]
      rw [ih seen]
      congr 1
      simp [List.filter_cons, h]
    · simp only [dedupSeenGo, if_neg h]
      have hfc : (r :: rest).filter (fun x => x ∉ seen)
          = r :: rest.filter (fun x => x ∉ seen) := by
        simp [List.filter_cons, h]
      rw [hfc, keepFirst, ih (r :: seen)]
      congr 1
      rw [List.filter_filter]
      congr 1
      refine List.filter_congr ?_
      intro x _
      by_cases h1 : x ∈ seen <;> by_cases h2 : x = r <;>
        simp [h1, h2, List.mem_cons]

theorem dedupSeen_eq_keepFirst (l : List Row) : dedupSeenGo [] l = keepFirst l := by
  rw [dedupSeenGo_eq]
  congr 1
  refine (List.filter_congr ?_).trans (List.filter_true _)
  intro x _
  simp

/-! ## Splitting lemmas -/

theorem splitGo_length_pos : ∀ (cs : List Char) (fuel : Nat) (cur : List Char),
    1 ≤ (splitGo fuel cur cs).length := by
  intro cs
  induction cs with
  | nil => intro fuel cur; cases fuel <;> simp [splitGo]
  | cons c t ih =>
    intro fuel cur
    cases fuel with
    | zero => exact ih 0 (c :: cur)
    | succ n =>
      by_cases h : c = '.'
      · simp only [splitGo, if_pos h, List.length_cons]
        omega
      · simp only [splitGo, if_neg h]
        exact ih (n + 1) (c :: cur)

theorem splitGo_ops (t : List Char) :
    splitGo 3 [] ('b' :: 'p' :: 'y' :: '.' :: 'o' :: 'p' :: 's' :: '.' :: t)
      = "bpy" :: "ops" :: splitGo 1 [] t := rfl

theorem splitGo_types (t : List Char) :
    splitGo 3 [] ('b' :: 'p' :: 'y' :: '.' :: 't' :: 'y' :: 'p' :: 'e' :: 's' :: '.' :: t)
      = "bpy" :: "types" :: splitGo 1 [] t := rfl

theorem three_le_splitDot_ops {a : String} (h : pyStartsWith a "bpy.ops." = true) :
    3 ≤ (pySplitDot a 3).length := by
  unfold pyStartsWith at h
  rw [ List.isPrefixOf_iff_prefix] at h
  obtain ⟨t, ht⟩ := h
  unfold pySplitDot
  rw [← ht]
  have hchars : ("bpy.ops.".data : List Char) ++ t
      = 'b' :: 'p' :: 'y' :: '.' :: 'o' :: 'p' :: 's' :: '.' :: t := rfl
  rw [hchars, splitGo_ops]
  have := splitGo_length_pos t 1 []
  simp only [List.length_cons]
  omega

theorem three_le_splitDot_types {a : String} (h : pyStartsWith a "bpy.types." = true) :
    3 ≤ (pySplitDot a 3).length := by
  unfold pyStartsWith at h
  rw [ List.isPrefixOf_iff_prefix] at h
  obtain ⟨t, ht⟩ := h
  unfold pySplitDot
  rw [← ht]
  have hchars : ("bpy.types.".data : List Char) ++ t
      = 'b' :: 'p' :: 'y' :: '.' :: 't' :: 'y' :: 'p' :: 'e' :: 's' :: '.' :: t := rfl
  rw [hchars, splitGo_types]
  have := splitGo_length_pos t 1 []
  simp only [List.length_cons]
  omega

theorem ns_some_of_ops {a : String} (h : pyStartsWith a "bpy.ops." = true) :
    ∃ k, (pySplitDot a 3)[2]? = some k := by
  have h3 := three_le_splitDot_ops h
  exact ⟨_, List.getElem?_eq_getElem (by omega)⟩

theorem ns_some_of_types {a : String} (h : pyStartsWith a "bpy.types." = true) :
    ∃ k, (pySplitDot a 3)[2]? = some k := by
  have h3 := three_le_splitDot_types h
  exact ⟨_, List.getElem?_eq_getElem (by omega)⟩

/-! ## Classifier lemmas -/

theorem classify_anchor_operators {a : String}
    (h : classify_anchor a = some "operators") : pyStartsWith a "bpy.ops." = true := by
  unfold classify_anchor at h
  split_ifs at h <;> first | assumption | exact absurd h (by decide)

theorem classify_anchor_types {a : String}
    (h : classify_anchor a = some "types") : pyStartsWith a "bpy.types." = true := by
  unfold classify_anchor at h
  split_ifs at h <;> first | assumption | exact absurd h (by decide)

/-! ## Scanner lemmas -/

theorem bucketIds_pred {P : String → String → Prop}
    (hP : ∀ a g, classify_anchor a = some g → P g a) :
    ∀ (ids : List String) (m : List (String × List String)),
    (∀ kv ∈ m, ∀ x ∈ kv.2, P kv.1 x) →
    ∀ kv ∈ bucketIds m ids, ∀ x ∈ kv.2, P kv.1 x := by
  intro ids
  induction ids with
  | nil => intro m hm; simpa [bucketIds] using hm
  | cons a rest ih =>
    intro m hm
    simp only [bucketIds]
    cases hca : classify_anchor a with
    | none => exact ih m hm
    | some g => exact ih _ (addEntry_pred hm (hP a g hca))

theorem mem_scan_anchors {d : Doc} {g : String} {l : List String}
    (h : (g, l) ∈ (scan_html d).anchors) :
    ∃ v, (g, v) ∈ bucketIds [] d.ids ∧ l = sortedDedup v ∧ v ≠ [] := by
  simp only [scan_html, List.mem_map, List.mem_filter] at h
  obtain ⟨⟨k, v⟩, ⟨hmem, hne⟩, heq⟩ := h
  obtain ⟨rfl, rfl⟩ : k = g ∧ sortedDedup v = l := by
    simpa [Prod.ext_iff] using heq
  refine ⟨v, hmem, rfl, ?_⟩
  simpa [List.isEmpty_iff] using hne

theorem scan_group_classify {d : Doc} {g a : String}
    (h : a ∈ getGroup (scan_html d).anchors g) : classify_anchor a = some g := by
  obtain ⟨l, hl, ha⟩ := getGroup_mem h
  obtain ⟨v, hv, rfl, -⟩ := mem_scan_anchors hl
  have hav : a ∈ v := mem_sortedDedup.mp ha
  exact bucketIds_pred (fun a g hc => hc) d.ids [] (by simp) (g, v) hv a hav

/-! ## Index-builder lemmas -/

theorem addAnchors_ok {f : String} :
    ∀ (as : List String) (m : List (String × List Pair)),
    (∀ a ∈ as, ∃ k, (pySplitDot a 3)[2]? = some k) →
    ∃ m', addAnchors f m as = .ok m' := by
  intro as
  induction as with
  | nil => intro m _; exact ⟨m, rfl⟩
  | cons a rest ih =>
    intro m hall
    obtain ⟨k, hk⟩ := hall a (List.mem_cons_self _ _)
    simp only [addAnchors, hk]
    exact ih _ (fun x hx => hall x (List.mem_cons_of_mem _ hx))

theorem addAnchors_mono {f : String} :
    ∀ (as : List String) (m m' : List (String × List Pair)) {k : String} {x : Pair},
    addAnchors f m as = .ok m' → (∃ v, (k, v) ∈ m ∧ x ∈ v) →
    ∃ v', (k, v') ∈ m' ∧ x ∈ v' := by
  intro as
  induction as with
  | nil =>
    intro m m' k x h hx
    simp only [addAnchors, Except.ok.injEq] at h
    subst h
    exact hx
  | cons a rest ih =>
    intro m m' k x h hx
    cases hk : (pySplitDot a 3)[2]? with
    | none => simp [addAnchors, hk] at h
    | some k₀ =>
      simp only [addAnchors, hk] at h
      obtain ⟨v, hv, hxv⟩ := hx
      obtain ⟨v', hv', hsub⟩ := mem_addEntry_mono hv k₀ ⟨a, f⟩
      exact ih _ _ h ⟨v', hv', hsub x hxv⟩

theorem addAnchors_insert {f : String} :
    ∀ (as : List String) (m m' : List (String × List Pair)) {a k : String},
    addAnchors f m as = .ok m' → a ∈ as → (pySplitDot a 3)[2]? = some k →
    ∃ v, (k, v) ∈ m' ∧ (⟨a, f⟩ : Pair) ∈ v := by
  intro as
  induction as with
  | nil => intro m m' a k h ha; cases ha
  | cons b rest ih =>
    intro m m' a k h ha hk
    rcases List.mem_cons.mp ha with rfl | ha'
    · simp only [addAnchors, hk] at h
      exact addAnchors_mono rest _ _ h (mem_addEntry_self m k ⟨a, f⟩)
    · cases hkb : (pySplitDot b 3)[2]? with
      | none => simp [addAnchors, hkb] at h
      | some kb =>
        simp only [addAnchors, hkb] at h
        exact ih _ _ h ha' hk

theorem stepEntry_ok {st st' : BuildState} {e : Record} (h : stepEntry st e = .ok st') :
    addAnchors e.file st.ops (getGroup e.anchors "operators") = .ok st'.ops
    ∧ addAnchors e.file st.tys (getGroup e.anchors "types") = .ok st'.tys
    ∧ st'.topic = addEntry st.topic e.cls e.file := by
  unfold stepEntry at h
  cases h1 : addAnchors e.file st.ops (getGroup e.anchors "operators") with
  | error msg => rw [h1] at h; cases h
  | ok ops =>
    rw [h1] at h
    cases h2 : addAnchors e.file st.tys (getGroup e.anchors "types") with
    | error msg => rw [h2] at h; cases h
    | ok tys =>
      rw [h2] at h
      injection h with h
      subst h
      exact ⟨rfl, rfl, rfl⟩

theorem stepEntry_scan_ok (st : BuildState) (d : Doc) :
    ∃ st', stepEntry st (scan_html d) = .ok st' := by
  have hops : ∃ ops, addAnchors (scan_html d).file st.ops
      (getGroup (scan_html d).anchors "operators") = .ok ops := by
    refine addAnchors_ok _ _ ?_
    intro a ha
    exact ns_some_of_ops (classify_anchor_operators (scan_group_classify ha))
  have htys : ∃ tys, addAnchors (scan_html d).file st.tys
      (getGroup (scan_html d).anchors "types") = .ok tys := by
    refine addAnchors_ok _ _ ?_
    intro a ha
    exact ns_some_of_types (classify_anchor_types (scan_group_classify ha))
  obtain ⟨ops, h1⟩ := hops
  obtain ⟨tys, h2⟩ := htys
  exact ⟨⟨ops, tys, addEntry st.topic (scan_html d).cls (scan_html d).file⟩,
    by simp [stepEntry, h1, h2]⟩

theorem buildIndexes_scan_ok :
    ∀ (ds : List Doc) (st : BuildState),
    ∃ st', buildIndexes st (ds.map scan_html) = .ok st' := by
  intro ds
  induction ds with
  | nil => intro st; exact ⟨st, rfl⟩
  | cons d rest ih =>
    intro st
    obtain ⟨st1, h1⟩ := stepEntry_scan_ok st d
    obtain ⟨st', h'⟩ := ih st1
    exact ⟨st', by simp [buildIndexes, h1, h']⟩

theorem buildIndexes_mono_ops :
    ∀ (es : List Record) (st st' : BuildState) {k : String} {x : Pair},
    buildIndexes st es = .ok st' → (∃ v, (k, v) ∈ st.ops ∧ x ∈ v) →
    ∃ v', (k, v') ∈ st'.ops ∧ x ∈ v' := by
  intro es
  induction es with
  | nil =>
    intro st st' k x h hx
    simp only [buildIndexes, Except.ok.injEq] at h
    subst h
    exact hx
  | cons e rest ih =>
    intro st st' k x h hx
    cases hse : stepEntry st e with
    | error msg => simp [buildIndexes, hse] at h
    | ok st1 =>
      simp only [buildIndexes, hse] at h
      obtain ⟨hops, -, -⟩ := stepEntry_ok hse
      exact ih _ _ h (addAnchors_mono _ _ _ hops hx)

theorem buildIndexes_mono_tys :
    ∀ (es : List Record) (st st' : BuildState) {k : String} {x : Pair},
    buildIndexes st es = .ok st' → (∃ v, (k, v) ∈ st.tys ∧ x ∈ v) →
    ∃ v', (k, v') ∈ st'.tys ∧ x ∈ v' := by
  intro es
  induction es with
  | nil =>
    intro st st' k x h hx
    simp only [buildIndexes, Except.ok.injEq] at h
    subst h
    exact hx
  | cons e rest ih =>
    intro st st' k x h hx
    cases hse : stepEntry st e with
    | error msg => simp [buildIndexes, hse] at h
    | ok st1 =>
      simp only [buildIndexes, hse] at h
      obtain ⟨-, htys, -⟩ := stepEntry_ok hse
      exact ih _ _ h (addAnchors_mono _ _ _ htys hx)

theorem buildIndexes_insert_ops :
    ∀ (es : List Record) (st st' : BuildState) {e : Record} {a k : String},
    buildIndexes st es = .ok st' → e ∈ es → a ∈ getGroup e.anchors "operators" →
    (pySplitDot a 3)[2]? = some k →
    ∃ v, (k, v) ∈ st'.ops ∧ (⟨a, e.file⟩ : Pair) ∈ v := by
  intro es
  induction es with
  | nil => intro st st' e a k h he; cases he
  | cons e₀ rest ih =>
    intro st st' e a k h he ha hk
    cases hse : stepEntry st e₀ with
    | error msg => simp [buildIndexes, hse] at h
    | ok st1 =>
      simp only [buildIndexes, hse] at h
      rcases List.mem_cons.mp he with rfl | he'
      · obtain ⟨hops, -, -⟩ := stepEntry_ok hse
        exact buildIndexes_mono_ops rest _ _ h (addAnchors_insert _ _ _ hops ha hk)
      · exact ih _ _ h he' ha hk

theorem buildIndexes_insert_tys :
    ∀ (es : List Record) (st st' : BuildState) {e : Record} {a k : String},
    buildIndexes st es = .ok st' → e ∈ es → a ∈ getGroup e.anchors "types" →
    (pySplitDot a 3)[2]? = some k →
    ∃ v, (k, v) ∈ st'.tys ∧ (⟨a, e.file⟩ : Pair) ∈ v := by
  intro es
  induction es with
  | nil => intro st st' e a k h he; cases he
  | cons e₀ rest ih =>
    intro st st' e a k h he ha hk
    cases hse : stepEntry st e₀ with
    | error msg => simp [buildIndexes, hse] at h
    | ok st1 =>
      simp only [buildIndexes, hse] at h
      rcases List.mem_cons.mp he with rfl | he'
      · obtain ⟨-, htys, -⟩ := stepEntry_ok hse
        exact buildIndexes_mono_tys rest _ _ h (addAnchors_insert _ _ _ htys ha hk)
      · exact ih _ _ h he' ha hk

/-! ## Error-path lemmas -/

theorem addAnchors_err {f : String} :
    ∀ (as : List String) (m : List (String × List Pair)),
    (∃ a ∈ as, (pySplitDot a 3).length < 3) →
    ∃ msg, addAnchors f m as = .error msg := by
  intro as
  induction as with
  | nil => intro m h; obtain ⟨a, ha, -⟩ := h; cases ha
  | cons b rest ih =>
    intro m h
    cases hkb : (pySplitDot b 3)[2]? with
    | none =>
      exact ⟨"IndexError: list index out of range", by simp [addAnchors, hkb]⟩
    | some kb =>
      obtain ⟨a, ha, hlen⟩ := h
      rcases List.mem_cons.mp ha with rfl | ha'
      · obtain ⟨hlt, -⟩ := List.getElem?_eq_some.mp hkb
        omega
      · simp only [addAnchors, hkb]
        exact ih _ ⟨a, ha', hlen⟩

theorem stepEntry_err {st : BuildState} {e : Record}
    (h : ∃ a, (a ∈ getGroup e.anchors "operators" ∨ a ∈ getGroup e.anchors "types")
      ∧ (pySplitDot a 3).length < 3) :
    ∃ msg, stepEntry st e = .error msg := by
  obtain ⟨a, hmem | hmem, hlen⟩ := h
  · obtain ⟨msg, hmsg⟩ := @addAnchors_err e.file _ st.ops ⟨a, hmem, hlen⟩
    exact ⟨msg, by simp [stepEntry, hmsg]⟩
  · cases hops : addAnchors e.file st.ops (getGroup e.anchors "operators") with
    | error msg => exact ⟨msg, by simp [stepEntry, hops]⟩
    | ok ops =>
      obtain ⟨msg, hmsg⟩ := @addAnchors_err e.file _ st.tys ⟨a, hmem, hlen⟩
      exact ⟨msg, by simp [stepEntry, hops, hmsg]⟩

theorem buildFromEntries_ok {docRoot : String} {entries : List Record} {st : BuildState}
    (h : buildIndexes ⟨[], [], []⟩ entries = .ok st) :
    buildFromEntries docRoot entries = Except.ok
      { doc_root := docRoot, pages_scanned := entries.length, entries := entries
      , operators_by_namespace := sortIndex st.ops
      , types_by_namespace := sortIndex st.tys
      , pages_by_class := sortTopic st.topic
      , notes :=
        [ "Use this manifest to map natural-language tasks to exact Blender API anchors."
        , "Prefer local project scripts in junipali-game/blender_tools when overlap exists." ] } := by
  unfold buildFromEntries
  rw [h]

theorem buildIndexes_err :
    ∀ (es : List Record) (st : BuildState),
    (∃ e ∈ es, ∃ a, (a ∈ getGroup e.anchors "operators" ∨ a ∈ getGroup e.anchors "types")
      ∧ (pySplitDot a 3).length < 3) →
    ∃ msg, buildIndexes st es = .error msg := by
  intro es
  induction es with
  | nil => intro st h; obtain ⟨e, he, -⟩ := h; cases he
  | cons e₀ rest ih =>
    intro st h
    obtain ⟨e, he, ha⟩ := h
    rcases List.mem_cons.mp he with rfl | he'
    · obtain ⟨msg, hmsg⟩ := @stepEntry_err st e ha
      exact ⟨msg, by simp [buildIndexes, hmsg]⟩
    · cases hse : stepEntry st e₀ with
      | error msg => exact ⟨msg, by simp [buildIndexes, hse]⟩
      | ok st1 =>
        obtain ⟨msg, hmsg⟩ := ih st1 ⟨e, he', ha⟩
        exact ⟨msg, by simp [buildIndexes, hse, hmsg]⟩

/-! ## Sorting lemmas -/

theorem pairLe_iff {p q : Pair} : pairLe p q = true ↔ pairTupleLe p q := by
  simp only [pairLe, pairTupleLe, Bool.or_eq_true, Bool.and_eq_true,
    decide_eq_true_eq, strLt_iff, strLe_iff]

theorem pairTupleLe_trans {a b c : Pair} (hab : pairTupleLe a b)
    (hbc : pairTupleLe b c) : pairTupleLe a c := by
  simp only [pairTupleLe] at *
  rcases hab with h1 | ⟨h1, h2⟩ <;> rcases hbc with h3 | ⟨h3, h4⟩
  · exact Or.inl (lt_trans h1 h3)
  · exact Or.inl (lt_of_lt_of_le h1 (le_of_eq h3))
  · exact Or.inl (lt_of_le_of_lt (le_of_eq h1) h3)
  · exact Or.inr ⟨h1.trans h3, le_trans h2 h4⟩

theorem pairTupleLe_total (a b : Pair) : pairTupleLe a b ∨ pairTupleLe b a := by
  simp only [pairTupleLe]
  rcases lt_trichotomy a.file b.file with h | h | h
  · exact Or.inl (Or.inl h)
  · rcases le_total a.id b.id with h2 | h2
    · exact Or.inl (Or.inr ⟨h, h2⟩)
    · exact Or.inr (Or.inr ⟨h.symm, h2⟩)
  · exact Or.inr (Or.inl h)

theorem sortPairs_sorted (l : List Pair) :
    List.Pairwise pairTupleLe (sortPairs l) := by
  refine (sortBy_sorted ?_ ?_ l).imp (fun h => pairLe_iff.mp h)
  · intro a b
    rcases pairTupleLe_total a b with h | h
    · simp [pairLe_iff.mpr h]
    · simp [pairLe_iff.mpr h]
  · exact fun a b c hab hbc =>
      pairLe_iff.mpr (pairTupleLe_trans (pairLe_iff.mp hab) (pairLe_iff.mp hbc))

theorem sortIndex_keys_sorted (m : List (String × List Pair)) :
    List.Pairwise (fun a b => a.1 ≤ b.1) (sortIndex m) := by
  unfold sortIndex
  rw [List.pairwise_map]
  refine (sortBy_sorted ?_ ?_ m).imp (fun h => strLe_iff.mp h)
  · exact fun a b => strLe_total_bool a.1 b.1
  · exact fun a b c => strLe_trans_bool a.1 b.1 c.1

theorem sortIndex_values_sorted {m : List (String × List Pair)}
    {kv : String × List Pair} (h : kv ∈ sortIndex m) :
    List.Pairwise pairTupleLe kv.2 := by
  unfold sortIndex at h
  obtain ⟨kv₀, -, rfl⟩ := List.mem_map.mp h
  exact sortPairs_sorted _

theorem sortTopic_keys_sorted (m : List (String × List String)) :
    List.Pairwise (fun a b => a.1 ≤ b.1) (sortTopic m) := by
  unfold sortTopic
  rw [List.pairwise_map]
  refine (sortBy_sorted ?_ ?_ m).imp (fun h => strLe_iff.mp h)
  · exact fun a b => strLe_total_bool a.1 b.1
  · exact fun a b c => strLe_trans_bool a.1 b.1 c.1

theorem sortTopic_values_sorted {m : List (String × List String)}
    {kv : String × List String} (h : kv ∈ sortTopic m) :
    List.Pairwise (· ≤ ·) kv.2 := by
  unfold sortTopic at h
  obtain ⟨kv₀, -, rfl⟩ := List.mem_map.mp h
  refine (sortBy_sorted ?_ ?_ kv₀.2).imp (fun h => strLe_iff.mp h)
  · exact strLe_total_bool
  · exact strLe_trans_bool

theorem mem_sortPairs {l : List Pair} {x : Pair} (h : x ∈ l) : x ∈ sortPairs l :=
  (sortBy_perm pairLe l).mem_iff.mpr h

theorem mem_sortIndex {m : List (String × List Pair)} {k : String} {v : List Pair}
    (h : (k, v) ∈ m) : (k, sortPairs v) ∈ sortIndex m := by
  unfold sortIndex
  exact List.mem_map.mpr ⟨(k, v), (sortBy_perm _ m).mem_iff.mpr h, rfl⟩

/-! ## Determinism of the build under input permutation -/

theorem sortDocs_sorted (l : List Doc) :
    List.Pairwise (fun a b : Doc => a.file ≤ b.file) (sortDocs l) := by
  unfold sortDocs
  refine (sortBy_sorted ?_ ?_ l).imp (fun h => strLe_iff.mp h)
  · exact fun a b => strLe_total_bool a.file b.file
  · exact fun a b c => strLe_trans_bool a.file b.file c.file

theorem pairwise_file_lt_of_le {l : List Doc}
    (hle : List.Pairwise (fun a b : Doc => a.file ≤ b.file) l)
    (hnd : (l.map Doc.file).Nodup) :
    List.Pairwise (fun a b : Doc => a.file < b.file) l := by
  have hne : List.Pairwise (fun a b : Doc => a.file ≠ b.file) l := by
    rw [List.Nodup, List.pairwise_map] at hnd
    exact hnd
  exact (hle.and hne).imp (fun h => lt_of_le_of_ne h.1 h.2)

theorem sortDocs_eq_of_perm {l1 l2 : List Doc} (hp : l1.Perm l2)
    (hnd : (l1.map Doc.file).Nodup) : sortDocs l1 = sortDocs l2 := by
  have hp1 : (sortDocs l1).Perm l1 := sortBy_perm _ l1
  have hp2 : (sortDocs l2).Perm l2 := sortBy_perm _ l2
  have hperm : (sortDocs l1).Perm (sortDocs l2) := hp1.trans (hp.trans hp2.symm)
  have hnd2 : (l2.map Doc.file).Nodup := ((hp.map Doc.file).nodup_iff).mp hnd
  have hnd1' : ((sortDocs l1).map Doc.file).Nodup := ((hp1.map Doc.file).nodup_iff).mpr hnd
  have hnd2' : ((sortDocs l2).map Doc.file).Nodup := ((hp2.map Doc.file).nodup_iff).mpr hnd2
  have hs1 := pairwise_file_lt_of_le (sortDocs_sorted l1) hnd1'
  have hs2 := pairwise_file_lt_of_le (sortDocs_sorted l2) hnd2'
  haveI : IsAntisymm Doc (fun a b : Doc => a.file < b.file) :=
    ⟨fun a b h1 h2 => absurd (lt_trans h1 h2) (lt_irrefl _)⟩
  exact List.eq_of_perm_of_sorted hperm hs1 hs2

/-! ## Counting lemmas for the scanner -/

theorem totLen_bucketIds : ∀ (ids : List String) (m : List (String × List String)),
    totLen (bucketIds m ids) ≤ totLen m + ids.length := by
  intro ids
  induction ids with
  | nil => intro m; simp [bucketIds]
  | cons a rest ih =>
    intro m
    cases hca : classify_anchor a with
    | none =>
      rw [show bucketIds m (a :: rest) = bucketIds m rest from by simp [bucketIds, hca]]
      have := ih m
      simp only [List.length_cons]
      omega
    | some g =>
      rw [show bucketIds m (a :: rest) = bucketIds (addEntry m g a) rest from by
        simp [bucketIds, hca]]
      have := ih (addEntry m g a)
      rw [totLen_addEntry] at this
      simp only [List.length_cons]
      omega

theorem totLen_filter_le {β : Type} (p : String × List β → Bool)
    (m : List (String × List β)) : totLen (m.filter p) ≤ totLen m := by
  induction m with
  | nil => simp
  | cons kv rest ih =>
    rw [List.filter_cons]
    by_cases h : p kv = true
    · rw [if_pos h]
      simp only [totLen, List.map_cons, List.sum_cons] at ih ⊢
      omega
    · rw [if_neg h]
      simp only [totLen] at ih ⊢
      simp only [List.map_cons, List.sum_cons]
      omega

theorem totLen_map_sortedDedup (m : List (String × List String)) :
    totLen (m.map (fun kv => (kv.1, sortedDedup kv.2))) ≤ totLen m := by
  induction m with
  | nil => simp [totLen]
  | cons kv rest ih =>
    simp only [totLen, List.map_cons, List.sum_cons] at ih ⊢
    have := length_sortedDedup_le kv.2
    omega

/-! ## Claims -/

/-- Claim C1: for every anchor in a document's operators group and every
anchor in its types group, the index builder derives the namespace key
as the dot-delimited segment at 0-indexed position 2 when splitting the
anchor into at most four parts, and the pair `{anchor, source file}`
lands in that namespace's list of `operators_by_namespace`
(respectively `types_by_namespace`); in particular
`bpy.ops.mesh.fill_holes` yields namespace `mesh` and `bpy.types.Object`
yields namespace `Object`. -/
theorem claim1_namespace_extraction :
    (∀ (docRoot : String) (docs : List Doc) (m : Manifest) (e : Record) (a k : String),
      build_manifest docRoot docs = Except.ok m → e ∈ m.entries →
      a ∈ getGroup e.anchors "operators" → (pySplitDot a 3)[2]? = some k →
      ∃ v, (k, v) ∈ m.operators_by_namespace ∧ (⟨a, e.file⟩ : Pair) ∈ v)
    ∧ (∀ (docRoot : String) (docs : List Doc) (m : Manifest) (e : Record) (a k : String),
      build_manifest docRoot docs = Except.ok m → e ∈ m.entries →
      a ∈ getGroup e.anchors "types" → (pySplitDot a 3)[2]? = some k →
      ∃ v, (k, v) ∈ m.types_by_namespace ∧ (⟨a, e.file⟩ : Pair) ∈ v)
    ∧ (pySplitDot "bpy.ops.mesh.fill_holes" 3)[2]? = some "mesh"
    ∧ (pySplitDot "bpy.types.Object" 3)[2]? = some "Object" := by
  refine ⟨?_, ?_, rfl, rfl⟩
  · intro docRoot docs m e a k hok he ha hk
    unfold build_manifest buildFromEntries at hok
    cases hbi : buildIndexes ⟨[], [], []⟩ ((sortDocs docs).map scan_html) with
    | error msg => rw [hbi] at hok; cases hok
    | ok st =>
      rw [hbi] at hok
      injection hok with hok
      subst hok
      obtain ⟨v, hv, hmem⟩ := buildIndexes_insert_ops _ _ _ hbi he ha hk
      exact ⟨sortPairs v, mem_sortIndex hv, mem_sortPairs hmem⟩
  · intro docRoot docs m e a k hok he ha hk
    unfold build_manifest buildFromEntries at hok
    cases hbi : buildIndexes ⟨[], [], []⟩ ((sortDocs docs).map scan_html) with
    | error msg => rw [hbi] at hok; cases hok
    | ok st =>
      rw [hbi] at hok
      injection hok with hok
      subst hok
      obtain ⟨v, hv, hmem⟩ := buildIndexes_insert_tys _ _ _ hbi he ha hk
      exact ⟨sortPairs v, mem_sortIndex hv, mem_sortPairs hmem⟩

set_option maxRecDepth 10000 in
/-- Witness for C1: on the concrete two-document corpus the pair
`{bpy.ops.mesh.fill, bpy.ops.mesh.html}` is indexed under namespace
`mesh`. -/
theorem claim1_witness :
    build_manifest "docs" demoDocs = Except.ok demoManifest
    ∧ ∃ v, ("mesh", v) ∈ demoManifest.operators_by_namespace
        ∧ ({ id := "bpy.ops.mesh.fill", file := "bpy.ops.mesh.html" } : Pair) ∈ v := by
  have hb : build_manifest "docs" demoDocs = Except.ok demoManifest := by decide
  refine ⟨hb, ?_⟩
  exact claim1_namespace_extraction.1 "docs" demoDocs demoManifest
    { file := "bpy.ops.mesh.html", title := "Mesh Ops", cls := "ops_page", id_count := 2
    , anchors := [("operators", ["bpy.ops.mesh.fill", "bpy.ops.mesh.knife"])] }
    "bpy.ops.mesh.fill" "mesh" hb (by decide) (by decide) (by decide)

/-- Claim C2: after all documents are processed, every layer of the built
indexes is sorted: namespace keys of `operators_by_namespace` and
`types_by_namespace` ascend lexically, each namespace's pair list
ascends by the tuple `(file, anchor)`, class keys of `pages_by_class`
ascend lexically, and each class's file list ascends lexically. -/
theorem claim2_indexes_sorted :
    ∀ (docRoot : String) (docs : List Doc) (m : Manifest),
    build_manifest docRoot docs = Except.ok m →
    (List.Pairwise (fun a b => a.1 ≤ b.1) m.operators_by_namespace
      ∧ ∀ kv ∈ m.operators_by_namespace, List.Pairwise pairTupleLe kv.2)
    ∧ (List.Pairwise (fun a b => a.1 ≤ b.1) m.types_by_namespace
      ∧ ∀ kv ∈ m.types_by_namespace, List.Pairwise pairTupleLe kv.2)
    ∧ (List.Pairwise (fun a b => a.1 ≤ b.1) m.pages_by_class
      ∧ ∀ kv ∈ m.pages_by_class, List.Pairwise (· ≤ ·) kv.2) := by
  intro docRoot docs m hok
  unfold build_manifest buildFromEntries at hok
  cases hbi : buildIndexes ⟨[], [], []⟩ ((sortDocs docs).map scan_html) with
  | error msg => rw [hbi] at hok; cases hok
  | ok st =>
    rw [hbi] at hok
    injection hok with hok
    subst hok
    exact ⟨⟨sortIndex_keys_sorted _, fun kv hkv => sortIndex_values_sorted hkv⟩,
      ⟨sortIndex_keys_sorted _, fun kv hkv => sortIndex_values_sorted hkv⟩,
      ⟨sortTopic_keys_sorted _, fun kv hkv => sortTopic_values_sorted hkv⟩⟩

set_option maxRecDepth 10000 in
/-- Witness for C2 on the concrete two-document corpus. -/
theorem claim2_witness :
    build_manifest "docs" demoDocs = Except.ok demoManifest
    ∧ List.Pairwise (fun a b => a.1 ≤ b.1) demoManifest.operators_by_namespace := by
  have hb : build_manifest "docs" demoDocs = Except.ok demoManifest := by decide
  exact ⟨hb, (claim2_indexes_sorted "docs" demoDocs demoManifest hb).1.1⟩

/-- Claim C3: for every manifest, needle and limit, the query engine
de-duplicates the emitted row sequence stably: a row equal as an exact
tuple to an earlier row is dropped, the first occurrence is kept and the
relative order of kept rows is preserved (the kept rows are exactly
`keepFirst` of the emitted sequence: a duplicate-free order-preserving
subsequence containing every emitted row), and `total` equals the length
of the deduplicated sequence before truncation to `limit`. -/
theorem claim3_dedup_stable :
    ∀ (entries : List Record) (q : String) (limit : Int),
    queryRows entries q limit = pySlice (keepFirst (emitRows entries q)) limit
    ∧ queryTotal entries q = (keepFirst (emitRows entries q)).length
    ∧ List.Sublist (keepFirst (emitRows entries q)) (emitRows entries q)
    ∧ (keepFirst (emitRows entries q)).Nodup
    ∧ ∀ r ∈ emitRows entries q, r ∈ keepFirst (emitRows entries q) := by
  intro entries q limit
  refine ⟨?_, ?_, keepFirst_sublist _, keepFirst_nodup _,
    fun r hr => mem_keepFirst_of_mem hr⟩
  · unfold queryRows
    rw [dedupSeen_eq_keepFirst]
  · unfold queryTotal
    rw [dedupSeen_eq_keepFirst]

/-- Witness for C3: a concrete emitted row is kept by the dedup pass. -/
theorem claim3_witness :
    (("a.html", "t", some "bpy.ops.a.x") : Row) ∈ keepFirst (emitRows qEnts "bpy") :=
  (claim3_dedup_stable qEnts "bpy" 25).2.2.2.2 _ (by decide)

/-- Counterexample to C4: the claim says any `limit ≤ 0` returns zero
rows; with `limit = -1` on a two-match corpus the query returns one row
(Python's negative slice keeps all but the last row). -/
theorem claim4_counterexample :
    ((-1 : Int) ≤ 0) ∧ queryRows qEnts "bpy" (-1) ≠ [] := by
  exact ⟨by decide, by decide⟩

/-- Claim C4 as amended: `limit = 0` returns zero rows; a negative `limit`
follows Python slice semantics and returns the deduplicated sequence
with its last `|limit|` rows dropped (zero rows only when `|limit|` is
at least the distinct count); in all cases `total` is computed over the
full deduplicated match set. -/
theorem claim4_amended :
    ∀ (entries : List Record) (q : String) (limit : Int),
    (limit = 0 → queryRows entries q limit = [])
    ∧ (limit < 0 → queryRows entries q limit
        = (keepFirst (emitRows entries q)).take
            ((keepFirst (emitRows entries q)).length - (-limit).toNat))
    ∧ queryTotal entries q = (keepFirst (emitRows entries q)).length := by
  intro entries q limit
  refine ⟨?_, ?_, ?_⟩
  · rintro rfl
    simp [queryRows, pySlice]
  · intro hneg
    unfold queryRows pySlice
    rw [if_neg (by omega), dedupSeen_eq_keepFirst]
  · unfold queryTotal
    rw [dedupSeen_eq_keepFirst]

/-- Witness for C4 (amended) at `limit = -1` on the concrete corpus. -/
theorem claim4_witness :
    queryRows qEnts "bpy" (-1)
      = (keepFirst (emitRows qEnts "bpy")).take
          ((keepFirst (emitRows qEnts "bpy")).length - (-(-1 : Int)).toNat) :=
  (claim4_amended qEnts "bpy" (-1)).2.1 (by decide)

/-- Claim C5: `classify_page` (source name `classify`) and
`classify_anchor` are pure total functions of their input (determinism
and freedom from side effects are inherent to the functional embedding);
each is extensionally the first-match evaluation of its ordered prefix
rule list, `classify` with catch-all `other_page`, `classify_anchor`
possibly returning no group; in particular a file named
`bpy.ops.mesh.html` classifies as `ops_page`, never `bpy_page`. -/
theorem claim5_classifier_rules :
    (∀ f : String, classify f = (firstMatch page_rules f).getD "other_page")
    ∧ (∀ a : String, classify_anchor a = firstMatch anchor_rules a)
    ∧ classify "bpy.ops.mesh.html" = "ops_page"
    ∧ ("ops_page" : String) ≠ "bpy_page"
    ∧ classify_anchor "section-heading" = none := by
  refine ⟨?_, ?_, rfl, by decide, rfl⟩
  · intro f
    simp only [page_rules, firstMatch, classify]
    split_ifs <;> rfl
  · exact fun a => rfl

/-- Claim C6: for every anchor that enters namespace extraction with fewer
than three dot-delimited segments, the build produces a defined outcome:
an explicit error value carrying a diagnostic message (the uncaught
Python `IndexError` aborting the build), and it never silently indexes
the anchor — no index state is produced at all. -/
theorem claim6_under_segmented_error :
    ∀ (st : BuildState) (entries : List Record),
    (∃ e ∈ entries, ∃ a,
      (a ∈ getGroup e.anchors "operators" ∨ a ∈ getGroup e.anchors "types")
      ∧ (pySplitDot a 3).length < 3) →
    (∃ msg, buildIndexes st entries = Except.error msg)
    ∧ ∀ st', buildIndexes st entries ≠ Except.ok st' := by
  intro st entries h
  obtain ⟨msg, hmsg⟩ := buildIndexes_err entries st h
  refine ⟨⟨msg, hmsg⟩, ?_⟩
  intro st' hok
  rw [hmsg] at hok
  cases hok

/-- Witness for C6: a record holding the two-segment anchor `bpy.ops`
makes the index builder return an explicit error. -/
theorem claim6_witness :
    ∃ msg, buildIndexes ⟨[], [], []⟩ [recBad] = Except.error msg := by
  refine (claim6_under_segmented_error ⟨[], [], []⟩ [recBad] ?_).1
  exact ⟨recBad, by decide, "bpy.ops", Or.inl (by decide), by decide⟩

/-- Counterexample to C7: the claim says each group bucket of a scanned
record is kept in extraction order; scanning a document whose ids arrive
as `[bpy.ops.b.y, bpy.ops.b.x]` stores the lexically sorted bucket
`[bpy.ops.b.x, bpy.ops.b.y]`, not the extraction order. -/
theorem claim7_counterexample :
    (scan_html docC7).anchors = [("operators", ["bpy.ops.b.x", "bpy.ops.b.y"])]
    ∧ (["bpy.ops.b.x", "bpy.ops.b.y"] : List String)
      ≠ ["bpy.ops.b.y", "bpy.ops.b.x"] := by
  exact ⟨by decide, by decide⟩

/-- Claim C7 as amended: for every scanned document, each group's bucket in
the record's anchors-by-group map is the raw bucket deduplicated of
exact string matches and lexically sorted already by the scanner
(strictly increasing, same members as the raw extraction-order bucket,
empty buckets dropped); sorting is not deferred to aggregation. -/
theorem claim7_amended :
    ∀ (d : Doc) (g : String) (l : List String), (g, l) ∈ (scan_html d).anchors →
    List.Pairwise (· < ·) l ∧ l ≠ []
    ∧ ∃ v, (g, v) ∈ bucketIds [] d.ids ∧ l = sortedDedup v ∧ ∀ a, a ∈ l ↔ a ∈ v := by
  intro d g l h
  obtain ⟨v, hv, rfl, hne⟩ := mem_scan_anchors h
  exact ⟨pairwise_sortedDedup v, sortedDedup_ne_nil hne, v, hv, rfl,
    fun a => mem_sortedDedup⟩

/-- Witness for C7 (amended) on the concrete out-of-order document. -/
theorem claim7_witness :
    List.Pairwise (· < ·) (["bpy.ops.b.x", "bpy.ops.b.y"] : List String) :=
  (claim7_amended docC7 "operators" ["bpy.ops.b.x", "bpy.ops.b.y"] (by decide)).1

/-- Claim C8: manifest construction is idempotent and deterministic:
building from an unchanged document set — the same documents, however
the directory happens to enumerate them — yields the same manifest, and
hence byte-identical output under any serialization function. -/
theorem claim8_deterministic :
    ∀ (docRoot : String) (l1 l2 : List Doc), l1.Perm l2 → (l1.map Doc.file).Nodup →
    build_manifest docRoot l1 = build_manifest docRoot l2
    ∧ ∀ ser : Except String Manifest → String,
        ser (build_manifest docRoot l1) = ser (build_manifest docRoot l2) := by
  intro docRoot l1 l2 hp hnd
  have h : build_manifest docRoot l1 = build_manifest docRoot l2 := by
    unfold build_manifest
    rw [sortDocs_eq_of_perm hp hnd]
  exact ⟨h, fun ser => congrArg ser h⟩

/-- Witness for C8: the demo corpus enumerated in reverse builds the
identical manifest. -/
theorem claim8_witness :
    build_manifest "docs"
      [ ⟨"bpy.types.object.html", none, ["bpy.types.Object"]⟩
      , ⟨"bpy.ops.mesh.html", some "Mesh Ops", ["bpy.ops.mesh.fill", "bpy.ops.mesh.knife"]⟩ ]
      = build_manifest "docs" demoDocs := by
  refine (claim8_deterministic "docs" _ demoDocs ?_ ?_).1
  · exact List.Perm.swap _ _ _
  · decide

/-- Claim C9: for every scanned document, `id_count` (the raw number of id
occurrences found, before any filtering or deduplication) is at least
the sum over all groups of the lengths of the record's grouped anchor
lists. -/
theorem claim9_id_count_bound :
    ∀ d : Doc, totLen (scan_html d).anchors ≤ (scan_html d).id_count := by
  intro d
  have h1 : (scan_html d).anchors
      = ((bucketIds [] d.ids).filter (fun kv => !kv.2.isEmpty)).map
          (fun kv => (kv.1, sortedDedup kv.2)) := rfl
  have h2 : (scan_html d).id_count = d.ids.length := rfl
  rw [h1, h2]
  calc totLen (((bucketIds [] d.ids).filter (fun kv => !kv.2.isEmpty)).map
        (fun kv => (kv.1, sortedDedup kv.2)))
      ≤ totLen ((bucketIds [] d.ids).filter (fun kv => !kv.2.isEmpty)) :=
        totLen_map_sortedDedup _
    _ ≤ totLen (bucketIds [] d.ids) := totLen_filter_le _ _
    _ ≤ totLen ([] : List (String × List String)) + d.ids.length := totLen_bucketIds _ _
    _ = d.ids.length := by simp [totLen]

/-- Claim C10: every anchor the scanner places in the operators or types
bucket starts with `bpy.ops.` or `bpy.types.` respectively, so splitting
it on `.` into at most four parts yields at least three segments;
consequently namespace extraction never faults on records produced by
the scanner and the whole build always succeeds on the scan path. -/
theorem claim10_scan_never_faults :
    (∀ a : String,
      pyStartsWith a "bpy.ops." = true ∨ pyStartsWith a "bpy.types." = true →
      3 ≤ (pySplitDot a 3).length)
    ∧ ∀ (docRoot : String) (docs : List Doc),
        ∃ m, build_manifest docRoot docs = Except.ok m := by
  constructor
  · intro a h
    rcases h with h | h
    · exact three_le_splitDot_ops h
    · exact three_le_splitDot_types h
  · intro docRoot docs
    obtain ⟨st, hst⟩ := buildIndexes_scan_ok (sortDocs docs) ⟨[], [], []⟩
    exact ⟨_, buildFromEntries_ok hst⟩

/-- Witness for C10 at a concrete operators anchor and the demo corpus. -/
theorem claim10_witness :
    3 ≤ (pySplitDot "bpy.ops.x" 3).length
    ∧ ∃ m, build_manifest "docs" demoDocs = Except.ok m :=
  ⟨claim10_scan_never_faults.1 "bpy.ops.x" (Or.inl (by decide)),
    claim10_scan_never_faults.2 "docs" demoDocs⟩

end BlenderManifest
